import Mathlib

/-!
Shallow embedding of `feasibility_tests.c` (fixed-priority real-time
schedulability tests: completion-time test, scheduling-point test,
rate-monotonic least upper bound, EDF/LLF utilization tests).

Modelling conventions:
* `U32_T` values are modelled as `ℕ` with exact arithmetic (the analyses
  are meaningful only far below 2^32, where the C arithmetic and the
  `double` conversions are exact).
* `ceil((double)a / b)` on natural numbers with `b > 0` is the integer
  ceiling division `(a + b - 1) / b`.
* The `double` utilization accumulations of `rate_monotonic_least_upper_bound`,
  `edf_feasibility` and `llf_feasibility` are modelled exactly over `ℚ`,
  and the transcendental Liu-Layland bound `N * (2^(1/N) - 1)` over `ℝ`.
* The `do { ... } while (1)` response-time loop of
  `completion_time_feasibility` has no bound in the C source, so it is
  embedded with explicit fuel: the result `none` means the loop has not
  reached a fixed point within `fuel` iterations; "the C function returns
  TRUE" is rendered as `∃ fuel, ... = some true`.
-/

namespace FeasibilityTests

/-- `ceil((double)a / b)` for naturals (exact for `b > 0`). -/
def ceilDiv (a b : ℕ) : ℕ := (a + b - 1) / b

/-- `U32_T ex2_period[] = {2, 5, 7, 13};` (array as a function on indices). -/
def ex2_period : ℕ → ℕ := fun i => [2, 5, 7, 13].getD i 0

/-- `U32_T ex2_wcet[] = {1, 1, 1, 2};` -/
def ex2_wcet : ℕ → ℕ := fun i => [1, 1, 1, 2].getD i 0

/-- Seed of the response-time iteration for task `i`:
`an = Σ_{j=0..i} wcet[j]` (the first `for` loop of
`completion_time_feasibility`). -/
def ctSeed (wcet : ℕ → ℕ) (i : ℕ) : ℕ := (Finset.range (i + 1)).sum wcet

/-- One step of the response-time iteration for task `i`:
`anext = wcet[i] + Σ_{j<i} ceil(an / period[j]) * wcet[j]`. -/
def ctStep (period wcet : ℕ → ℕ) (i an : ℕ) : ℕ :=
  wcet i + (Finset.range i).sum (fun j => ceilDiv an (period j) * wcet j)

/-- The `do { ... } while (1)` loop of `completion_time_feasibility`,
with explicit fuel: returns `some an` once `anext == an`, `none` if no
fixed point is reached within `fuel` steps (the C loop would still be
running). -/
def ctIter (period wcet : ℕ → ℕ) (i : ℕ) : ℕ → ℕ → Option ℕ
  | 0, _ => none
  | fuel + 1, an =>
    if ctStep period wcet i an = an then some an
    else ctIter period wcet i fuel (ctStep period wcet i an)

/-- The mathematical iteration sequence `a_0, a_1, ...` for task `i`
(`a_0` the seed, `a_{k+1} = ctStep a_k`), used to state claims. -/
def aSeq (period wcet : ℕ → ℕ) (i : ℕ) : ℕ → ℕ
  | 0 => ctSeed wcet i
  | k + 1 => ctStep period wcet i (aSeq period wcet i k)

/-- The outer per-task loop of `completion_time_feasibility`, over an
explicit list of task indices: returns early with `some false` when a
task's fixed point exceeds its deadline (`if (an > deadline[i]) return FALSE;`),
`some true` when all tasks pass, `none` if some iteration ran out of fuel. -/
def ctfAux (period wcet deadline : ℕ → ℕ) (fuel : ℕ) : List ℕ → Option Bool
  | [] => some true
  | i :: rest =>
    match ctIter period wcet i fuel (ctSeed wcet i) with
    | none => none
    | some an =>
      if deadline i < an then some false
      else ctfAux period wcet deadline fuel rest

/-- `int completion_time_feasibility(U32_T numServices, U32_T period[],
U32_T wcet[], U32_T deadline[])`, with explicit fuel for the unbounded
inner loop. -/
def completion_time_feasibility (numServices : ℕ) (period wcet deadline : ℕ → ℕ)
    (fuel : ℕ) : Option Bool :=
  ctfAux period wcet deadline fuel (List.range numServices)

/-- Cumulative demand of tasks `0..i` by instant `t`:
`temp = Σ_{j=0..i} wcet[j] * ceil(t / period[j])`. -/
def demand (period wcet : ℕ → ℕ) (i t : ℕ) : ℕ :=
  (Finset.range (i + 1)).sum (fun j => wcet j * ceilDiv t (period j))

/-- The inner double loop of `scheduling_point_feasibility` for task `i`:
searches scheduling points `l * period[k]`, `k = 0..i`,
`l = 1..floor(period[i]/period[k])`, stopping at the first point whose
demand does not exceed it (`status = 1; break;`). -/
def spTask (period wcet : ℕ → ℕ) (i : ℕ) : Bool :=
  (List.range (i + 1)).any (fun k =>
    ((List.range (period i / period k)).map (fun l => l + 1)).any (fun l =>
      decide (demand period wcet i (l * period k) ≤ l * period k)))

/-- `int scheduling_point_feasibility(U32_T numServices, U32_T period[],
U32_T wcet[], U32_T deadline[])`; the `deadline` argument is taken but
never read, exactly as in the C source. -/
def scheduling_point_feasibility (numServices : ℕ)
    (period wcet _deadline : ℕ → ℕ) : Bool :=
  (List.range numServices).all (spTask period wcet)

/-- The `utility_sum` accumulation loop shared by
`rate_monotonic_least_upper_bound`, `edf_feasibility` and
`llf_feasibility`: `Σ_i wcet[i] / period[i]`, folded left in index order
as the C loop does, over exact rationals. -/
def utilSum (numServices : ℕ) (period wcet : ℕ → ℕ) : ℚ :=
  (List.range numServices).foldl (fun acc i => acc + (wcet i : ℚ) / (period i : ℚ)) 0

/-- The Liu-Layland bound `lub = numServices * (pow(2.0, 1.0/numServices) - 1.0)`. -/
noncomputable def rmLub (numServices : ℕ) : ℝ :=
  (numServices : ℝ) * ((2 : ℝ) ^ ((numServices : ℝ))⁻¹ - 1)

/-- `int rate_monotonic_least_upper_bound(...)`: `utility_sum <= lub`.
The `deadline` argument is taken but never read, exactly as in the C
source.  Stated as a `Prop` because the bound is transcendental. -/
def rate_monotonic_least_upper_bound (numServices : ℕ)
    (period wcet _deadline : ℕ → ℕ) : Prop :=
  ((utilSum numServices period wcet : ℚ) : ℝ) ≤ rmLub numServices

/-- `int edf_feasibility(...)`: `totalUtilization <= 1.0`. -/
def edf_feasibility (numServices : ℕ) (period wcet : ℕ → ℕ) : Bool :=
  decide (utilSum numServices period wcet ≤ 1)

/-- `int llf_feasibility(...)`: byte-for-byte the same computation as
`edf_feasibility` in the C source. -/
def llf_feasibility (numServices : ℕ) (period wcet : ℕ → ℕ) : Bool :=
  decide (utilSum numServices period wcet ≤ 1)

/-! ### Fixed-point machinery for the response-time iteration -/

/-- Once the iteration sequence stabilizes it stays constant. -/
theorem aSeq_stab_ge (p w : ℕ → ℕ) (i k : ℕ)
    (h : aSeq p w i (k + 1) = aSeq p w i k) :
    ∀ m, k ≤ m → aSeq p w i m = aSeq p w i k := by
  intro m hm
  induction m with
  | zero =>
    have hk : k = 0 := Nat.le_zero.mp hm
    rw [hk]
  | succ m ih =>
    rcases Nat.eq_or_lt_of_le hm with heq | hlt
    · rw [← heq]
    · have hkm : k ≤ m := Nat.lt_succ_iff.mp hlt
      have h2 := ih hkm
      show ctStep p w i (aSeq p w i m) = aSeq p w i k
      rw [h2]
      exact h

/-- Any two stabilization points of the sequence carry the same value. -/
theorem aSeq_stab_unique (p w : ℕ → ℕ) (i k m : ℕ)
    (h1 : aSeq p w i (k + 1) = aSeq p w i k)
    (h2 : aSeq p w i (m + 1) = aSeq p w i m) :
    aSeq p w i k = aSeq p w i m := by
  rcases le_total k m with h | h
  · exact (aSeq_stab_ge p w i k h1 m h).symm
  · exact aSeq_stab_ge p w i m h2 k h

/-- Soundness of the fueled loop: if `ctIter` answers from the `j`-th
iterate, the answer is a stabilization value of the sequence. -/
theorem ctIter_sound (p w : ℕ → ℕ) (i : ℕ) :
    ∀ fuel j R, ctIter p w i fuel (aSeq p w i j) = some R →
      ∃ m, aSeq p w i (m + 1) = aSeq p w i m ∧ aSeq p w i m = R := by
  intro fuel
  induction fuel with
  | zero => intro j R h; simp [ctIter] at h
  | succ fuel ih =>
    intro j R h
    by_cases hc : ctStep p w i (aSeq p w i j) = aSeq p w i j
    · rw [ctIter, if_pos hc] at h
      exact ⟨j, hc, by injection h⟩
    · rw [ctIter, if_neg hc] at h
      exact ih (j + 1) R h

/-- Completeness of the fueled loop: if the sequence stabilizes `fuel`
steps after iterate `j`, then `fuel + 1` units of fuel suffice from
iterate `j`, and the answer is a stabilization value. -/
theorem ctIter_complete (p w : ℕ → ℕ) (i : ℕ) :
    ∀ fuel j, aSeq p w i (j + fuel + 1) = aSeq p w i (j + fuel) →
      ∃ R, ctIter p w i (fuel + 1) (aSeq p w i j) = some R ∧
        ∃ m, aSeq p w i (m + 1) = aSeq p w i m ∧ aSeq p w i m = R := by
  intro fuel
  induction fuel with
  | zero =>
    intro j h
    have hc : ctStep p w i (aSeq p w i j) = aSeq p w i j := h
    exact ⟨aSeq p w i j, by rw [ctIter, if_pos hc], j, hc, rfl⟩
  | succ fuel ih =>
    intro j h
    by_cases hc : ctStep p w i (aSeq p w i j) = aSeq p w i j
    · exact ⟨aSeq p w i j, by rw [ctIter, if_pos hc], j, hc, rfl⟩
    · have e1 : j + 1 + fuel = j + (fuel + 1) := by omega
      have h' : aSeq p w i (j + 1 + fuel + 1) = aSeq p w i (j + 1 + fuel) := by
        rw [e1]; exact h
      obtain ⟨R, hR, hm⟩ := ih (j + 1) h'
      refine ⟨R, ?_, hm⟩
      rw [ctIter, if_neg hc]
      exact hR

/-- More fuel never changes a successful answer. -/
theorem ctIter_mono (p w : ℕ → ℕ) (i : ℕ) :
    ∀ fuel a R, ctIter p w i fuel a = some R →
      ∀ fuel', fuel ≤ fuel' → ctIter p w i fuel' a = some R := by
  intro fuel
  induction fuel with
  | zero => intro a R h; simp [ctIter] at h
  | succ fuel ih =>
    intro a R h fuel' hf
    obtain ⟨f2, rfl⟩ : ∃ f2, fuel' = f2 + 1 := ⟨fuel' - 1, by omega⟩
    by_cases hc : ctStep p w i a = a
    · rw [ctIter, if_pos hc] at h ⊢
      exact h
    · rw [ctIter, if_neg hc] at h ⊢
      exact ih _ _ h _ (by omega)

/-- The loop (run from the seed, with any sufficient fuel) answers `R`
exactly when the iteration sequence stabilizes at value `R`. -/
theorem ctIter_some_iff (p w : ℕ → ℕ) (i R : ℕ) :
    (∃ fuel, ctIter p w i fuel (ctSeed w i) = some R) ↔
      (∃ k, aSeq p w i (k + 1) = aSeq p w i k ∧ aSeq p w i k = R) := by
  constructor
  · rintro ⟨fuel, h⟩
    exact ctIter_sound p w i fuel 0 R h
  · rintro ⟨k, hk, hR⟩
    have h0 : aSeq p w i (0 + k + 1) = aSeq p w i (0 + k) := by
      simpa using hk
    obtain ⟨R', hR', m, hm, hmR⟩ := ctIter_complete p w i k 0 h0
    have : R' = R := by
      rw [← hmR, ← hR]
      exact aSeq_stab_unique p w i m k hm hk
    exact ⟨k + 1, by rw [← this]; exact hR'⟩

/-! ### Lemmas about the per-task outer loop -/

theorem ctfAux_cons_none (p w d : ℕ → ℕ) (fuel i : ℕ) (rest : List ℕ)
    (h : ctIter p w i fuel (ctSeed w i) = none) :
    ctfAux p w d fuel (i :: rest) = none := by
  simp only [ctfAux, h]

theorem ctfAux_cons_some (p w d : ℕ → ℕ) (fuel i an : ℕ) (rest : List ℕ)
    (h : ctIter p w i fuel (ctSeed w i) = some an) :
    ctfAux p w d fuel (i :: rest) =
      if d i < an then some false else ctfAux p w d fuel rest := by
  simp only [ctfAux, h]

/-- More fuel never changes a decided outer-loop answer. -/
theorem ctfAux_mono (p w d : ℕ → ℕ) (fuel : ℕ) :
    ∀ L b, ctfAux p w d fuel L = some b →
      ∀ fuel', fuel ≤ fuel' → ctfAux p w d fuel' L = some b := by
  intro L
  induction L with
  | nil => intro b h fuel' _; simpa [ctfAux] using h
  | cons i rest ih =>
    intro b h fuel' hf
    cases hIt : ctIter p w i fuel (ctSeed w i) with
    | none => rw [ctfAux_cons_none p w d fuel i rest hIt] at h; cases h
    | some an =>
      rw [ctfAux_cons_some p w d fuel i an rest hIt] at h
      rw [ctfAux_cons_some p w d fuel' i an rest
        (ctIter_mono p w i fuel _ an hIt fuel' hf)]
      by_cases hd : d i < an
      · rw [if_pos hd] at h ⊢; exact h
      · rw [if_neg hd] at h ⊢; exact ih b h fuel' hf

/-- If the outer loop answers `TRUE`, every listed task's iteration
stabilizes at a value within its deadline. -/
theorem ctfAux_sound_true (p w d : ℕ → ℕ) (fuel : ℕ) :
    ∀ L, ctfAux p w d fuel L = some true →
      ∀ i ∈ L, ∃ k, aSeq p w i (k + 1) = aSeq p w i k ∧ aSeq p w i k ≤ d i := by
  intro L
  induction L with
  | nil => intro _ i hi; cases hi
  | cons i rest ih =>
    intro h j hj
    cases hIt : ctIter p w i fuel (ctSeed w i) with
    | none => rw [ctfAux_cons_none p w d fuel i rest hIt] at h; cases h
    | some an =>
      rw [ctfAux_cons_some p w d fuel i an rest hIt] at h
      by_cases hd : d i < an
      · rw [if_pos hd] at h; cases h
      · rw [if_neg hd] at h
        rcases List.mem_cons.mp hj with rfl | hj'
        · obtain ⟨m, hm, hmR⟩ := ctIter_sound p w j fuel 0 an hIt
          exact ⟨m, hm, by rw [hmR]; exact Nat.le_of_not_lt hd⟩
        · exact ih h j hj'

/-- If every listed task's iteration stabilizes within its deadline,
some fuel makes the outer loop answer `TRUE`. -/
theorem ctfAux_complete_true (p w d : ℕ → ℕ) :
    ∀ L : List ℕ,
      (∀ i ∈ L, ∃ k, aSeq p w i (k + 1) = aSeq p w i k ∧ aSeq p w i k ≤ d i) →
      ∃ fuel, ctfAux p w d fuel L = some true := by
  intro L
  induction L with
  | nil => exact fun _ => ⟨0, rfl⟩
  | cons i rest ih =>
    intro h
    obtain ⟨k, hk, hle⟩ := h i (List.mem_cons_self i rest)
    obtain ⟨f1, hf1⟩ := (ctIter_some_iff p w i (aSeq p w i k)).mpr ⟨k, hk, rfl⟩
    obtain ⟨f2, hf2⟩ := ih (fun j hj => h j (List.mem_cons_of_mem _ hj))
    refine ⟨max f1 f2, ?_⟩
    have h1 : ctIter p w i (max f1 f2) (ctSeed w i) = some (aSeq p w i k) :=
      ctIter_mono p w i f1 _ _ hf1 _ (le_max_left _ _)
    have h2 : ctfAux p w d (max f1 f2) rest = some true :=
      ctfAux_mono p w d f2 rest true hf2 _ (le_max_right _ _)
    rw [ctfAux_cons_some p w d _ i _ rest h1, if_neg (Nat.not_lt.mpr hle)]
    exact h2

/-- If every task in the prefix `L` passes, and task `i` stabilizes at a
value beyond its deadline, the outer loop answers `FALSE` on
`L ++ i :: rest` — without looking at `rest` at all. -/
theorem ctfAux_false_of_prefix_ok (p w d : ℕ → ℕ) (i R : ℕ)
    (hstab : ∃ k, aSeq p w i (k + 1) = aSeq p w i k ∧ aSeq p w i k = R)
    (hfail : d i < R) :
    ∀ L : List ℕ,
      (∀ j ∈ L, ∃ k, aSeq p w j (k + 1) = aSeq p w j k ∧ aSeq p w j k ≤ d j) →
      ∀ rest, ∃ fuel, ctfAux p w d fuel (L ++ i :: rest) = some false := by
  intro L
  induction L with
  | nil =>
    intro _ rest
    obtain ⟨f1, hf1⟩ := (ctIter_some_iff p w i R).mpr hstab
    refine ⟨f1, ?_⟩
    rw [List.nil_append, ctfAux_cons_some p w d f1 i R rest hf1, if_pos hfail]
  | cons j L' ih =>
    intro h rest
    obtain ⟨k, hk, hle⟩ := h j (List.mem_cons_self j L')
    obtain ⟨f1, hf1⟩ := (ctIter_some_iff p w j (aSeq p w j k)).mpr ⟨k, hk, rfl⟩
    obtain ⟨f2, hf2⟩ := ih (fun j' hj' => h j' (List.mem_cons_of_mem _ hj')) rest
    refine ⟨max f1 f2, ?_⟩
    have h1 : ctIter p w j (max f1 f2) (ctSeed w j) = some (aSeq p w j k) :=
      ctIter_mono p w j f1 _ _ hf1 _ (le_max_left _ _)
    have h2 : ctfAux p w d (max f1 f2) (L' ++ i :: rest) = some false :=
      ctfAux_mono p w d f2 _ false hf2 _ (le_max_right _ _)
    rw [List.cons_append, ctfAux_cons_some p w d _ j _ _ h1,
      if_neg (Nat.not_lt.mpr hle)]
    exact h2

/-! ### The iteration for task `i` only reads array entries `0..i` -/

theorem ctSeed_congr (w w' : ℕ → ℕ) (i : ℕ) (hw : ∀ j ≤ i, w' j = w j) :
    ctSeed w' i = ctSeed w i :=
  Finset.sum_congr rfl fun j hj =>
    hw j (Nat.lt_succ_iff.mp (Finset.mem_range.mp hj))

theorem ctStep_congr (p p' w w' : ℕ → ℕ) (i : ℕ)
    (hp : ∀ j < i, p' j = p j) (hw : ∀ j ≤ i, w' j = w j) (a : ℕ) :
    ctStep p' w' i a = ctStep p w i a := by
  unfold ctStep
  rw [hw i le_rfl]
  congr 1
  refine Finset.sum_congr rfl fun j hj => ?_
  have hji : j < i := Finset.mem_range.mp hj
  rw [hp j hji, hw j (Nat.le_of_lt hji)]

theorem aSeq_congr (p p' w w' : ℕ → ℕ) (i : ℕ)
    (hp : ∀ j < i, p' j = p j) (hw : ∀ j ≤ i, w' j = w j) :
    ∀ k, aSeq p' w' i k = aSeq p w i k := by
  intro k
  induction k with
  | zero => exact ctSeed_congr w w' i hw
  | succ k ih =>
    show ctStep p' w' i (aSeq p' w' i k) = ctStep p w i (aSeq p w i k)
    rw [ih]
    exact ctStep_congr p p' w w' i hp hw _

/-- `List.range n` splits at any `i < n`. -/
theorem range_split_at (i n : ℕ) (h : i < n) :
    ∃ rest, List.range n = List.range i ++ i :: rest := by
  induction n with
  | zero => omega
  | succ m ih =>
    rcases Nat.lt_or_ge i m with him | him
    · obtain ⟨rest, hrest⟩ := ih him
      refine ⟨rest ++ [m], ?_⟩
      rw [List.range_succ, hrest, List.append_assoc, List.cons_append]
    · have hi : i = m := by omega
      subst hi
      exact ⟨[], by rw [List.range_succ]⟩

/-! ### Claim theorems -/

/-- C1: for every task set of `N ≥ 1` tasks with strictly positive integer
periods and WCETs (decreasing-priority index order),
`completion_time_feasibility` returns `TRUE` iff for every task `i` the
iteration seeded with `a_0 = Σ_{j=0..i} wcet_j` and stepped by
`a_{k+1} = wcet_i + Σ_{j<i} ceil(a_k/period_j)*wcet_j` reaches a fixed
point `R_i ≤ deadline_i`; and it returns `FALSE` as soon as one task's
fixed point exceeds that task's deadline, without examining
lower-priority tasks (the verdict does not depend on any array entry
beyond the failing task's index). -/
theorem completion_time_feasibility_correct
    (n : ℕ) (p w d : ℕ → ℕ) (hn : 1 ≤ n)
    (hp : ∀ i < n, 0 < p i) (hw : ∀ i < n, 0 < w i) :
    ((∃ fuel, completion_time_feasibility n p w d fuel = some true) ↔
      ∀ i < n, ∃ k, aSeq p w i (k + 1) = aSeq p w i k ∧ aSeq p w i k ≤ d i)
    ∧
    (∀ i < n, ∀ R,
      (∀ j < i, ∃ k, aSeq p w j (k + 1) = aSeq p w j k ∧ aSeq p w j k ≤ d j) →
      (∃ k, aSeq p w i (k + 1) = aSeq p w i k ∧ aSeq p w i k = R) →
      d i < R →
      ∀ p' w' d' : ℕ → ℕ,
        (∀ j ≤ i, p' j = p j ∧ w' j = w j ∧ d' j = d j) →
        ∃ fuel, completion_time_feasibility n p' w' d' fuel = some false) := by
  constructor
  · constructor
    · rintro ⟨fuel, h⟩ i hi
      exact ctfAux_sound_true p w d fuel (List.range n) h i (List.mem_range.mpr hi)
    · intro h
      exact ctfAux_complete_true p w d (List.range n)
        (fun i hi => h i (List.mem_range.mp hi))
  · intro i hi R hpre hstab hfail p' w' d' hagree
    have hp' : ∀ j < i, p' j = p j := fun j hj => (hagree j (Nat.le_of_lt hj)).1
    have hw' : ∀ j ≤ i, w' j = w j := fun j hj => (hagree j hj).2.1
    have haSeq_i : ∀ k, aSeq p' w' i k = aSeq p w i k :=
      aSeq_congr p p' w w' i hp' hw'
    have haSeq_lt : ∀ j, j < i → ∀ k, aSeq p' w' j k = aSeq p w j k := by
      intro j hj
      exact aSeq_congr p p' w w' j
        (fun j' hj' => hp' j' (Nat.lt_trans hj' hj))
        (fun j' hj' => hw' j' (Nat.le_of_lt (Nat.lt_of_le_of_lt hj' hj)))
    obtain ⟨rest, hsplit⟩ := range_split_at i n hi
    have hstab' : ∃ k, aSeq p' w' i (k + 1) = aSeq p' w' i k ∧ aSeq p' w' i k = R := by
      obtain ⟨k, hk, hkR⟩ := hstab
      exact ⟨k, by rw [haSeq_i, haSeq_i]; exact hk, by rw [haSeq_i]; exact hkR⟩
    have hfail' : d' i < R := by rw [(hagree i le_rfl).2.2]; exact hfail
    have hpre' : ∀ j ∈ List.range i,
        ∃ k, aSeq p' w' j (k + 1) = aSeq p' w' j k ∧ aSeq p' w' j k ≤ d' j := by
      intro j hj
      have hji : j < i := List.mem_range.mp hj
      obtain ⟨k, hk, hkle⟩ := hpre j hji
      refine ⟨k, ?_, ?_⟩
      · rw [haSeq_lt j hji, haSeq_lt j hji]; exact hk
      · rw [haSeq_lt j hji, (hagree j (Nat.le_of_lt hji)).2.2]; exact hkle
    obtain ⟨fuel, hfuel⟩ :=
      ctfAux_false_of_prefix_ok p' w' d' i R hstab' hfail' (List.range i) hpre' rest
    exact ⟨fuel, by rw [completion_time_feasibility, hsplit]; exact hfuel⟩

/-- Witness for C1 at the one-task set `period = wcet = deadline = 1`. -/
theorem completion_time_feasibility_correct_witness :
    ((∃ fuel, completion_time_feasibility 1 (fun _ => 1) (fun _ => 1) (fun _ => 1)
        fuel = some true) ↔
      ∀ i < 1, ∃ k, aSeq (fun _ => 1) (fun _ => 1) i (k + 1) =
        aSeq (fun _ => 1) (fun _ => 1) i k ∧ aSeq (fun _ => 1) (fun _ => 1) i k ≤ 1)
    ∧
    (∀ i < 1, ∀ R,
      (∀ j < i, ∃ k, aSeq (fun _ => 1) (fun _ => 1) j (k + 1) =
        aSeq (fun _ => 1) (fun _ => 1) j k ∧ aSeq (fun _ => 1) (fun _ => 1) j k ≤ 1) →
      (∃ k, aSeq (fun _ => 1) (fun _ => 1) i (k + 1) =
        aSeq (fun _ => 1) (fun _ => 1) i k ∧ aSeq (fun _ => 1) (fun _ => 1) i k = R) →
      (1 : ℕ) < R →
      ∀ p' w' d' : ℕ → ℕ,
        (∀ j ≤ i, p' j = 1 ∧ w' j = 1 ∧ d' j = 1) →
        ∃ fuel, completion_time_feasibility 1 p' w' d' fuel = some false) :=
  completion_time_feasibility_correct 1 (fun _ => 1) (fun _ => 1) (fun _ => 1)
    le_rfl (fun _ _ => Nat.one_pos) (fun _ _ => Nat.one_pos)

/-- C2: for every task set of `N ≥ 1` tasks with strictly positive integer
periods and WCETs, `scheduling_point_feasibility` returns `TRUE` iff every
task `i` has some scheduling point `t = l * period_k` (`0 ≤ k ≤ i`,
`1 ≤ l ≤ floor(period_i / period_k)`) at which the cumulative demand
`Σ_{j=0..i} wcet_j * ceil(t / period_j)` is at most `t`.  (The inner
search is a short-circuiting `List.any`, mirroring the `break` at the
first satisfying point.) -/
theorem scheduling_point_feasibility_correct
    (n : ℕ) (p w d : ℕ → ℕ) (hn : 1 ≤ n)
    (hp : ∀ i < n, 0 < p i) (hw : ∀ i < n, 0 < w i) :
    scheduling_point_feasibility n p w d = true ↔
      ∀ i < n, ∃ k ≤ i, ∃ l, 1 ≤ l ∧ l ≤ p i / p k ∧
        demand p w i (l * p k) ≤ l * p k := by
  unfold scheduling_point_feasibility spTask
  rw [List.all_eq_true]
  constructor
  · intro h i hi
    have h2 := h i (List.mem_range.mpr hi)
    rw [List.any_eq_true] at h2
    obtain ⟨k, hk, hkin⟩ := h2
    rw [List.any_eq_true] at hkin
    obtain ⟨l, hl, hdec⟩ := hkin
    rw [List.mem_map] at hl
    obtain ⟨l0, hl0, rfl⟩ := hl
    refine ⟨k, Nat.lt_succ_iff.mp (List.mem_range.mp hk), l0 + 1,
      Nat.le_add_left 1 l0, ?_, of_decide_eq_true hdec⟩
    have := List.mem_range.mp hl0
    omega
  · intro h i hi
    obtain ⟨k, hk, l, hl1, hl2, hdem⟩ := h i (List.mem_range.mp hi)
    rw [List.any_eq_true]
    refine ⟨k, List.mem_range.mpr (Nat.lt_succ_iff.mpr hk), ?_⟩
    rw [List.any_eq_true]
    refine ⟨l, ?_, decide_eq_true hdem⟩
    rw [List.mem_map]
    exact ⟨l - 1, List.mem_range.mpr (by omega), by omega⟩

/-- Witness for C2 at the one-task set `period = wcet = deadline = 1`. -/
theorem scheduling_point_feasibility_correct_witness :
    scheduling_point_feasibility 1 (fun _ => 1) (fun _ => 1) (fun _ => 1) = true ↔
      ∀ i < 1, ∃ k ≤ i, ∃ l, 1 ≤ l ∧ l ≤ 1 / 1 ∧
        demand (fun _ => 1) (fun _ => 1) i (l * 1) ≤ l * 1 :=
  scheduling_point_feasibility_correct 1 (fun _ => 1) (fun _ => 1) (fun _ => 1)
    le_rfl (fun _ _ => Nat.one_pos) (fun _ _ => Nat.one_pos)

/-- The C accumulation loop computes the mathematical utilization sum. -/
theorem utilSum_eq_sum (n : ℕ) (p w : ℕ → ℕ) :
    utilSum n p w = (Finset.range n).sum (fun i => (w i : ℚ) / (p i : ℚ)) := by
  induction n with
  | zero => rfl
  | succ m ih =>
    have hstep : utilSum (m + 1) p w = utilSum m p w + (w m : ℚ) / (p m : ℚ) := by
      unfold utilSum
      rw [List.range_succ, List.foldl_append]
      rfl
    rw [hstep, ih, Finset.sum_range_succ]

/-- The exact rational utilization, read in `ℝ`. -/
theorem utilSum_cast (n : ℕ) (p w : ℕ → ℕ) :
    ((utilSum n p w : ℚ) : ℝ) =
      (Finset.range n).sum (fun i => (w i : ℝ) / (p i : ℝ)) := by
  rw [utilSum_eq_sum]
  push_cast
  rfl

/-- C6: for every task set with strictly positive periods and WCETs,
`edf_feasibility` and `llf_feasibility` each return `TRUE` iff the total
utilization `Σ wcet_i / period_i` is at most `1.0`, and consequently the
two functions agree on every input. -/
theorem edf_llf_feasibility_correct
    (n : ℕ) (p w : ℕ → ℕ) (hp : ∀ i < n, 0 < p i) (hw : ∀ i < n, 0 < w i) :
    (edf_feasibility n p w = true ↔
      (Finset.range n).sum (fun i => (w i : ℝ) / (p i : ℝ)) ≤ 1)
    ∧ (llf_feasibility n p w = true ↔
      (Finset.range n).sum (fun i => (w i : ℝ) / (p i : ℝ)) ≤ 1)
    ∧ edf_feasibility n p w = llf_feasibility n p w := by
  have key : edf_feasibility n p w = true ↔
      (Finset.range n).sum (fun i => (w i : ℝ) / (p i : ℝ)) ≤ 1 := by
    rw [edf_feasibility, decide_eq_true_eq, ← utilSum_cast]
    constructor
    · intro h; exact_mod_cast h
    · intro h; exact_mod_cast h
  exact ⟨key, key, rfl⟩

/-- Witness for C6 at the one-task set `period = wcet = 1`. -/
theorem edf_llf_feasibility_correct_witness :
    (edf_feasibility 1 (fun _ => 1) (fun _ => 1) = true ↔
      (Finset.range 1).sum (fun _ => ((1 : ℕ) : ℝ) / ((1 : ℕ) : ℝ)) ≤ 1)
    ∧ (llf_feasibility 1 (fun _ => 1) (fun _ => 1) = true ↔
      (Finset.range 1).sum (fun _ => ((1 : ℕ) : ℝ) / ((1 : ℕ) : ℝ)) ≤ 1)
    ∧ edf_feasibility 1 (fun _ => 1) (fun _ => 1) =
        llf_feasibility 1 (fun _ => 1) (fun _ => 1) :=
  edf_llf_feasibility_correct 1 (fun _ => 1) (fun _ => 1)
    (fun _ _ => Nat.one_pos) (fun _ _ => Nat.one_pos)

/-- C4: for every task set of `N ≥ 1` tasks with strictly positive periods
and WCETs, `rate_monotonic_least_upper_bound` returns `TRUE` iff the total
utilization `U = Σ wcet_i / period_i` satisfies `U ≤ N * (2^(1/N) - 1)`;
in particular for `N = 1` the bound equals `1.0`. -/
theorem rate_monotonic_least_upper_bound_correct
    (n : ℕ) (p w d : ℕ → ℕ) (hn : 1 ≤ n)
    (hp : ∀ i < n, 0 < p i) (hw : ∀ i < n, 0 < w i) :
    (rate_monotonic_least_upper_bound n p w d ↔
      (Finset.range n).sum (fun i => (w i : ℝ) / (p i : ℝ)) ≤
        (n : ℝ) * ((2 : ℝ) ^ ((n : ℝ))⁻¹ - 1))
    ∧ rmLub 1 = 1 := by
  constructor
  · unfold rate_monotonic_least_upper_bound rmLub
    rw [utilSum_cast]
  · unfold rmLub
    norm_num [Real.rpow_one]

/-- Witness for C4 at the one-task set `period = 2`, `wcet = 1`. -/
theorem rate_monotonic_least_upper_bound_correct_witness :
    (rate_monotonic_least_upper_bound 1 (fun _ => 2) (fun _ => 1) (fun _ => 2) ↔
      (Finset.range 1).sum (fun _ => ((1 : ℕ) : ℝ) / ((2 : ℕ) : ℝ)) ≤
        ((1 : ℕ) : ℝ) * ((2 : ℝ) ^ (((1 : ℕ) : ℝ))⁻¹ - 1))
    ∧ rmLub 1 = 1 :=
  rate_monotonic_least_upper_bound_correct 1 (fun _ => 2) (fun _ => 1) (fun _ => 2)
    le_rfl (fun _ _ => by norm_num) (fun _ _ => Nat.one_pos)

/-- The exact rational utilization of the ex-2 task set is `907/910`. -/
theorem utilSum_ex2 : utilSum 4 ex2_period ex2_wcet = 907 / 910 := by
  rw [utilSum_eq_sum, Finset.sum_range_succ, Finset.sum_range_succ,
    Finset.sum_range_succ, Finset.sum_range_succ, Finset.sum_range_zero]
  have e0 : ex2_period 0 = 2 := rfl
  have e1 : ex2_period 1 = 5 := rfl
  have e2 : ex2_period 2 = 7 := rfl
  have e3 : ex2_period 3 = 13 := rfl
  have f0 : ex2_wcet 0 = 1 := rfl
  have f1 : ex2_wcet 1 = 1 := rfl
  have f2 : ex2_wcet 2 = 1 := rfl
  have f3 : ex2_wcet 3 = 2 := rfl
  rw [e0, e1, e2, e3, f0, f1, f2, f3]
  norm_num

/-- The four-task Liu-Layland bound is below the ex-2 utilization:
`4 * (2^(1/4) - 1) < 907/910` (the left side is ≈ 0.7568). -/
theorem rmLub_four_lt : rmLub 4 < 907 / 910 := by
  unfold rmLub
  have hc : ((4 : ℕ) : ℝ) = (4 : ℝ) := by norm_num
  rw [hc]
  have h2 : ((2 : ℝ) ^ ((4 : ℝ))⁻¹) ^ (4 : ℕ) = 2 := by
    rw [← Real.rpow_natCast ((2 : ℝ) ^ ((4 : ℝ))⁻¹) 4,
      ← Real.rpow_mul (by norm_num : (0 : ℝ) ≤ 2)]
    norm_num
  have h3 : (0 : ℝ) ≤ (4547 : ℝ) / 3640 := by norm_num
  have h4lt : ((2 : ℝ) ^ ((4 : ℝ))⁻¹) ^ (4 : ℕ) < ((4547 : ℝ) / 3640) ^ (4 : ℕ) := by
    rw [h2]; norm_num
  have h5 : (2 : ℝ) ^ ((4 : ℝ))⁻¹ < 4547 / 3640 := lt_of_pow_lt_pow_left₀ 4 h3 h4lt
  linarith

/-- C7 counterexample: on the concrete set `periods = {2,5,7,13}`,
`wcets = {1,1,1,2}`, implicit deadlines, `scheduling_point_feasibility`
returns `FALSE` — refuting the claim that it (and
`completion_time_feasibility`) return `TRUE`: by time 13 the cumulative
demand of all four tasks is 14 at every scheduling point. -/
theorem ex2_scheduling_point_false :
    scheduling_point_feasibility 4 ex2_period ex2_wcet ex2_period = false := by
  decide

/-- C7 amended: on the ex-2 set the code actually yields
`completion_time_feasibility = FALSE` (task 3's response-time fixed point
is 14 > 13), `scheduling_point_feasibility = FALSE`,
`rate_monotonic_least_upper_bound = FALSE` (U = 907/910 exceeds the
4-task bound ≈ 0.7568), and `edf_feasibility = TRUE` (U ≤ 1). -/
theorem ex2_actual_verdicts :
    (∃ fuel, completion_time_feasibility 4 ex2_period ex2_wcet ex2_period fuel
      = some false)
    ∧ scheduling_point_feasibility 4 ex2_period ex2_wcet ex2_period = false
    ∧ ¬ rate_monotonic_least_upper_bound 4 ex2_period ex2_wcet ex2_period
    ∧ edf_feasibility 4 ex2_period ex2_wcet = true := by
  refine ⟨⟨32, by decide⟩, by decide, ?_, ?_⟩
  · unfold rate_monotonic_least_upper_bound
    rw [utilSum_ex2]
    intro h
    have hcast : (((907 : ℚ) / 910 : ℚ) : ℝ) = 907 / 910 := by norm_num
    rw [hcast] at h
    exact absurd h (not_le.mpr rmLub_four_lt)
  · unfold edf_feasibility
    rw [decide_eq_true_eq, utilSum_ex2]
    norm_num

/-! ### Non-termination of the response-time loop on an over-utilized set -/

/-- On `period = wcet = {1,1}` the response-time step of task 1 is
`a ↦ a + 1`: it strictly increases forever, so the C `do {} while(1)`
loop never reaches a fixed point. -/
theorem ctStep_ones (a : ℕ) :
    ctStep (fun _ => 1) (fun _ => 1) 1 a = a + 1 := by
  simp [ctStep, ceilDiv, Finset.sum_range_one, Nat.div_one]
  omega

/-- Task 1's fueled loop on the all-ones pair never answers. -/
theorem ctIter_ones_none :
    ∀ fuel a, ctIter (fun _ => 1) (fun _ => 1) 1 fuel a = none := by
  intro fuel
  induction fuel with
  | zero => intro a; rfl
  | succ fuel ih =>
    intro a
    rw [ctIter, if_neg (by rw [ctStep_ones]; omega)]
    exact ih _

/-- `completion_time_feasibility` on `numServices = 2`,
`period = wcet = deadline = {1,1}` answers for no amount of fuel: the C
function never returns. -/
theorem ctf_ones_none :
    ∀ fuel, completion_time_feasibility 2 (fun _ => 1) (fun _ => 1) (fun _ => 1)
      fuel = none := by
  intro fuel
  have hr : List.range 2 = [0, 1] := rfl
  rw [completion_time_feasibility, hr]
  cases fuel with
  | zero => rfl
  | succ f =>
    have hc : ctStep (fun _ => 1) (fun _ => 1) 0 (ctSeed (fun _ => 1) 0) =
        ctSeed (fun _ => 1) 0 := by decide
    have hs : ctSeed (fun _ => 1) 0 = 1 := by decide
    have h0 : ctIter (fun _ => 1) (fun _ => 1) 0 (f + 1) (ctSeed (fun _ => 1) 0) =
        some 1 := by
      rw [ctIter, if_pos hc, hs]
    rw [ctfAux_cons_some (fun _ => 1) (fun _ => 1) (fun _ => 1) (f + 1) 0 1 [1] h0,
      if_neg (by omega)]
    exact ctfAux_cons_none (fun _ => 1) (fun _ => 1) (fun _ => 1) (f + 1) 1 []
      (ctIter_ones_none (f + 1) _)

/-- C8 (code bug): the C response-time loop has no deadline-based early
exit, so on the valid over-utilized set `numServices = 2`,
`period = wcet = deadline = {1,1}` (utilization 2 > 1) the iterate
increases forever and `completion_time_feasibility` never returns —
refuting the claim that it terminates in bounded time on every input. -/
theorem completion_time_nonterminating :
    ∀ fuel, completion_time_feasibility 2 (fun _ => 1) (fun _ => 1) (fun _ => 1)
      fuel = none :=
  ctf_ones_none

/-- C3 (code bug): on the same valid set the two "exact" tests do not
return the same verdict: `scheduling_point_feasibility` returns `FALSE`
while `completion_time_feasibility` never returns at all (it loops
forever for lack of the deadline early-exit the spec describes). -/
theorem exact_tests_disagree_on_divergent_set :
    scheduling_point_feasibility 2 (fun _ => 1) (fun _ => 1) (fun _ => 1) = false
    ∧ ∀ fuel, completion_time_feasibility 2 (fun _ => 1) (fun _ => 1) (fun _ => 1)
        fuel = none :=
  ⟨by decide, ctf_ones_none⟩

/-- C9 (code bug): the analyzers perform no input validation at all.  On
the empty task set (`numServices = 0`) and on a task set with
`deadline ≠ period` (deadline 1, period 2) they return ordinary
`TRUE` verdicts instead of surfacing an error. -/
theorem no_input_validation :
    completion_time_feasibility 0 (fun _ => 1) (fun _ => 1) (fun _ => 1) 1
      = some true
    ∧ scheduling_point_feasibility 0 (fun _ => 1) (fun _ => 1) (fun _ => 1) = true
    ∧ completion_time_feasibility 1 (fun _ => 2) (fun _ => 1) (fun _ => 1) 1
      = some true
    ∧ scheduling_point_feasibility 1 (fun _ => 2) (fun _ => 1) (fun _ => 1) = true :=
  ⟨by decide, by decide, by decide, by decide⟩

/-- C10: `scheduling_point_feasibility` and
`rate_monotonic_least_upper_bound` never read their `deadline` argument:
for any two deadline assignments the verdicts coincide. -/
theorem deadline_argument_ignored :
    ∀ (n : ℕ) (p w d1 d2 : ℕ → ℕ),
      scheduling_point_feasibility n p w d1 = scheduling_point_feasibility n p w d2
      ∧ (rate_monotonic_least_upper_bound n p w d1 ↔
          rate_monotonic_least_upper_bound n p w d2) :=
  fun _ _ _ _ _ => ⟨rfl, Iff.rfl⟩

end FeasibilityTests
